import Mathlib

/-!
Shallow embedding of the blueprint package: parsing a command argument
vector into a tool blueprint (FromArgs) and rendering it back into a
concrete argument vector from a parameter mapping (BuildCommandArgs).
Strings are modelled as lists of characters; the two regular expressions
of the source are modelled by deterministic scanners proved equivalent to
their backtracking behaviour by case analysis (both patterns are
backtrack-free, as the character classes exclude the delimiters).
-/

namespace Studio

/-- A word, modelling a Go string as its list of runes. -/
abbrev Word := List Char

/-- Conversion from a Lean string literal to a word. -/
def str (x : String) : Word := x.data

/-- Character class test for Go ASCII whitespace as trimmed by TrimSpace
(the source may also trim exotic Unicode spaces; inputs considered here
are ASCII). -/
def isSpc (c : Char) : Bool := c = ' ' || c = '\t' || c = '\n' || c = '\r'

/-- Model of strings.TrimSpace. -/
def trim (s : Word) : Word :=
  ((s.dropWhile isSpc).reverse.dropWhile isSpc).reverse

/-- Model of strings.ReplaceAll with the one-character pattern "-",
replacing each hyphen by an underscore (name normalization). -/
def replaceDash (s : Word) : Word :=
  s.map (fun c => if c = '-' then '_' else c)

/-- One match of the template regular expression: the whole matched span
(group 0), the captured name (group 1) and the captured description
(group 2, empty when the description part is absent). -/
structure TMatch where
  full : Word
  name : Word
  desc : Word
deriving DecidableEq, Repr

/-- Attempt to match the template pattern at the head of the input,
returning the match and the remaining suffix. The pattern is two opening
braces, a nonempty run of characters other than the hash sign and the
closing brace, an optional hash sign followed by a nonempty run of
characters other than the closing brace, and two closing braces. The Go
pattern is backtrack-free here: after the greedy name run the next
character is a hash sign, a closing brace, or the match fails, and
shortening the run can never succeed because the run may not contain
either delimiter. -/
def tryTemplate (cs : Word) : Option (TMatch × Word) :=
  match cs with
  | '{' :: '{' :: rest =>
    let nm := rest.takeWhile (fun c => !(c = '#' || c = '}'))
    let rest1 := rest.dropWhile (fun c => !(c = '#' || c = '}'))
    if nm.isEmpty then none
    else
      match rest1 with
      | '#' :: rest2 =>
        let d := rest2.takeWhile (fun c => !(c = '}'))
        let rest3 := rest2.dropWhile (fun c => !(c = '}'))
        if d.isEmpty then none
        else
          match rest3 with
          | '}' :: '}' :: rest4 =>
            some (⟨'{' :: '{' :: (nm ++ '#' :: (d ++ ['}', '}'])), nm, d⟩, rest4)
          | _ => none
      | '}' :: '}' :: rest2 =>
        some (⟨'{' :: '{' :: (nm ++ ['}', '}']), nm, []⟩, rest2)
      | _ => none
  | _ => none

/-- Fuel-driven worker for finding all non-overlapping template matches,
scanning left to right as Go FindAllStringSubmatch does. The fuel is an
upper bound on the number of scanning steps; it is instantiated with the
length of the word, which always suffices. -/
def templateFindAllAux : Nat → Word → List TMatch
  | 0, _ => []
  | _, [] => []
  | Nat.succ n, c :: cs =>
    match tryTemplate (c :: cs) with
    | some (m, rest) => m :: templateFindAllAux n rest
    | none => templateFindAllAux n cs

/-- All non-overlapping matches of the template pattern in a word, in
left-to-right order (model of templateRegex.FindAllStringSubmatch). -/
def templateFindAll (w : Word) : List TMatch :=
  templateFindAllAux w.length w

/-- Fuel-driven worker for the display rewriting of a word: every matched
template span is replaced by two opening braces, the raw captured name
and two closing braces, mirroring ReplaceAllString with the template
"\x7b\x7b$1\x7d\x7d" (the captured name is inserted verbatim, neither
trimmed nor normalized). -/
def replaceDisplayAux : Nat → Word → Word
  | 0, s => s
  | _, [] => []
  | Nat.succ n, c :: cs =>
    match tryTemplate (c :: cs) with
    | some (m, rest) =>
      ('{' :: '{' :: (m.name ++ ['}', '}'])) ++ replaceDisplayAux n rest
    | none => c :: replaceDisplayAux n cs

/-- Display rewriting of a word (model of
templateRegex.ReplaceAllString arg "\x7b\x7b$1\x7d\x7d"). -/
def replaceDisplay (w : Word) : Word :=
  replaceDisplayAux w.length w

/-- Match of the anchored optional pattern against a whole word: an
opening square bracket, a nonempty run of characters other than dot and
closing square bracket, an optional run of exactly three dots, a closing
square bracket, end of word. Returns the captured name and whether the
three-dot suffix was present. -/
def optionalMatch (w : Word) : Option (Word × Bool) :=
  match w with
  | '[' :: rest =>
    let nm := rest.takeWhile (fun c => !(c = '.' || c = ']'))
    let rest1 := rest.dropWhile (fun c => !(c = '.' || c = ']'))
    if nm.isEmpty then none
    else
      match rest1 with
      | [']'] => some (nm, false)
      | ['.', '.', '.', ']'] => some (nm, true)
      | _ => none
  | _ => none

/-- Fuel-driven worker for strings.ReplaceAll: replace every
non-overlapping occurrence of the pattern, scanning left to right. The
empty pattern never arises in the source uses (every template span starts
with a brace); for it this worker leaves the word unchanged. -/
def replaceAllAux : Nat → Word → Word → Word → Word
  | 0, s, _, _ => s
  | _, [], _, _ => []
  | Nat.succ n, c :: cs, pat, rep =>
    if !pat.isEmpty && pat.isPrefixOf (c :: cs) then
      rep ++ replaceAllAux n ((c :: cs).drop pat.length) pat rep
    else
      c :: replaceAllAux n cs pat rep

/-- Model of strings.ReplaceAll s pat rep for a nonempty pattern. -/
def replaceAll (s pat rep : Word) : Word :=
  replaceAllAux s.length s pat rep

/-- Whether the pattern occurs as a contiguous substring of the word. -/
def occursIn : Word → Word → Bool
  | pat, [] => pat.isEmpty
  | pat, c :: cs => pat.isPrefixOf (c :: cs) || occursIn pat cs

/-- One item of a generic dynamically typed list: the source only ever
asks whether an item is a string (any non-string item is skipped), so an
item is modelled as a string or an opaque non-string. -/
inductive Item where
  | iStr (s : Word)
  | iOther
deriving DecidableEq, Repr

/-- A parameter value as deserialized from the wire: a string, a native
list of strings, a generic list of dynamically typed items, or any other
dynamic value. -/
inductive Value where
  | vStr (s : Word)
  | vStrList (l : List Word)
  | vList (l : List Item)
  | vOther
deriving DecidableEq, Repr

/-- A parameter mapping, modelling the Go map from names to dynamic
values; lookup returns the first binding of a key. -/
abbrev Params := List (Word × Value)

/-- Map lookup. -/
def plookup : Params → Word → Option Value
  | [], _ => none
  | (k, v) :: rest, key => if k = key then some v else plookup rest key

/-- A property schema as built by the source: a type, an optional
description, and for array properties the item type. -/
structure PropSchema where
  type : Word
  description : Option Word := none
  itemsType : Option Word := none
deriving DecidableEq, Repr

/-- The object input schema: type, properties map and optional required
list (the required list is absent when no name was collected). -/
structure InputSchema where
  type : Word
  properties : List (Word × PropSchema)
  required : Option (List Word)
deriving DecidableEq, Repr

/-- Insert or replace a binding in an association-list map, modelling a
Go map assignment. -/
def minsert : List (Word × PropSchema) → Word → PropSchema → List (Word × PropSchema)
  | [], k, v => [(k, v)]
  | (k0, v0) :: rest, k, v =>
    if k0 = k then (k, v) :: rest else (k0, v0) :: minsert rest k v

/-- Lookup in the properties map. -/
def pfind : List (Word × PropSchema) → Word → Option PropSchema
  | [], _ => none
  | (k, v) :: rest, key => if k = key then some v else pfind rest key

/-- One registered template occurrence (the source template struct). -/
structure Template where
  argIndex : Nat
  name : Word
  description : Word
  isArray : Bool
  isOptional : Bool
deriving DecidableEq, Repr

/-- A parsed blueprint (the source Blueprint struct). -/
structure Blueprint where
  BaseCommand : Word
  ToolName : Word
  ToolDescription : Word
  InputSchema : InputSchema
  args : List Word
  templates : List Template
deriving DecidableEq, Repr

/-- The accumulator threaded through the parsing loop: the description
parts collected so far, the properties map, the required list and the
template registry. -/
structure ParseAcc where
  descParts : List Word
  props : List (Word × PropSchema)
  required : List Word
  templates : List Template
deriving DecidableEq, Repr

/-- Processing of one template match inside a word at argument index i:
normalize the name, trim the description, write or update the property,
extend the required list when the name is new, and register the template
occurrence. -/
def processTemplateMatch (i : Nat) (acc : ParseAcc) (m : TMatch) : ParseAcc :=
  let varName := replaceDash (trim m.name)
  let description := trim m.desc
  let props :=
    if (pfind acc.props varName).isNone || !description.isEmpty then
      minsert acc.props varName
        ⟨str "string", if description.isEmpty then none else some description, none⟩
    else
      acc.props
  let required :=
    if varName ∈ acc.required then acc.required else acc.required ++ [varName]
  { acc with
    props := props
    required := required
    templates := acc.templates ++ [⟨i, varName, description, false, false⟩] }

/-- Processing of one word of the argument vector at index i: an optional
word updates the schema and the display parts according to its kind; any
other word has its template matches processed in order and its display
form appended. -/
def processWordParse (i : Nat) (acc : ParseAcc) (w : Word) : ParseAcc :=
  match optionalMatch w with
  | some (rawName, isArr) =>
    let varName := replaceDash rawName
    if isArr then
      { acc with
        props := minsert acc.props varName
          ⟨str "array", some (str "Additional command line arguments"), some (str "string")⟩
        required := acc.required ++ [varName]
        descParts := acc.descParts ++ ['[' :: (varName ++ str "...]")]
        templates := acc.templates ++
          [⟨i, varName, str "Additional command line arguments", true, true⟩] }
    else
      { acc with
        props := minsert acc.props varName ⟨str "string", none, none⟩
        descParts := acc.descParts ++ ['[' :: (varName ++ str "]")]
        templates := acc.templates ++ [⟨i, varName, [], false, true⟩] }
  | none =>
    let ms := templateFindAll w
    let acc1 := ms.foldl (processTemplateMatch i) acc
    let processed := if ms.isEmpty then w else replaceDisplay w
    { acc1 with descParts := acc1.descParts ++ [processed] }

/-- The parsing loop over the words after the base command, carrying the
argument index. -/
def parseLoop : Nat → ParseAcc → List Word → ParseAcc
  | _, acc, [] => acc
  | i, acc, w :: ws => parseLoop (i + 1) (processWordParse i acc w) ws

/-- Space join of the description parts. -/
def joinSp : List Word → Word
  | [] => []
  | [x] => x
  | x :: xs => x ++ ' ' :: joinSp xs

/-- Model of FromArgs: build a blueprint from an argument vector. For the
empty vector every string field is empty and the schema is the empty
object schema; otherwise the tail words are scanned for placeholders and
the description, the schema and the template registry are accumulated. -/
def FromArgs (args : List Word) : Blueprint :=
  match args with
  | [] =>
    { BaseCommand := []
      ToolName := []
      ToolDescription := []
      InputSchema := ⟨str "object", [], none⟩
      args := []
      templates := [] }
  | base :: rest =>
    let acc := parseLoop 1 ⟨[base], [], [], []⟩ rest
    { BaseCommand := base
      ToolName := replaceDash base
      ToolDescription :=
        str "Run the shell command `" ++ joinSp acc.descParts ++ str "`"
      InputSchema :=
        ⟨str "object",
         acc.props,
         if acc.required.isEmpty then none else some acc.required⟩
      args := base :: rest
      templates := acc.templates }

/-- The string items of a generic value list, skipping every non-string
item. -/
def stringItems : List Item → List Word
  | [] => []
  | Item.iStr s :: rest => s :: stringItems rest
  | _ :: rest => stringItems rest

/-- One substitution step of the renderer: when the mapping binds the
normalized name of the match to a string value, replace every occurrence
of the full matched span in the word processed so far by that value;
otherwise leave the word unchanged. -/
def substStep (params : Params) (acc : Word) (m : TMatch) : Word :=
  let varName := replaceDash (trim m.name)
  match plookup params varName with
  | some (Value.vStr s) => replaceAll acc m.full s
  | _ => acc

/-- Rendering of a non-optional word: process the template matches of the
original word in order, each by textual replacement of its span. -/
def templateSubst (params : Params) (w : Word) : Word :=
  (templateFindAll w).foldl (substStep params) w

/-- Contribution of one word to the rendered argument vector. An optional
array word expands to the elements of a bound nonempty string list, or to
the string items of a bound nonempty generic list; an optional plain word
expands to a bound nonempty string; otherwise an optional word vanishes.
Any other word contributes its substituted form as one entry. -/
def renderWord (params : Params) (w : Word) : List Word :=
  match optionalMatch w with
  | some (rawName, isArr) =>
    let varName := replaceDash rawName
    if isArr then
      match plookup params varName with
      | some (Value.vStrList l) => if l.isEmpty then [] else l
      | some (Value.vList l) => if l.isEmpty then [] else stringItems l
      | _ => []
    else
      match plookup params varName with
      | some (Value.vStr s) => if s.isEmpty then [] else [s]
      | _ => []
  | none => [templateSubst params w]

/-- Model of BuildCommandArgs: the base command followed by the
contributions of the words after it, in order. -/
def BuildCommandArgs (bp : Blueprint) (params : Params) : List Word :=
  bp.BaseCommand :: (bp.args.drop 1).flatMap (renderWord params)

/-- The string bound to a name by the mapping, when the bound value is a
string. -/
def boundStr (params : Params) (n : Word) : Option Word :=
  match plookup params n with
  | some (Value.vStr s) => some s
  | _ => none

/-- The display form of one word as it enters the tool description: an
optional word displays its normalized name in square brackets with the
dots kept for arrays; any other word keeps its characters with each
template span rewritten to the raw captured name in double braces. -/
def displayWord (w : Word) : Word :=
  match optionalMatch w with
  | some (rn, true) => '[' :: (replaceDash rn ++ str "...]")
  | some (rn, false) => '[' :: (replaceDash rn ++ str "]")
  | none => if (templateFindAll w).isEmpty then w else replaceDisplay w

/-- The normalized name of an optional word, when the word is one. -/
def wordOptName (w : Word) : Option Word :=
  (optionalMatch w).map (fun p => replaceDash p.1)

/-- The normalized names the word introduces through the optional array
grammar. -/
def wordArrayNames (w : Word) : List Word :=
  match optionalMatch w with
  | some (rn, true) => [replaceDash rn]
  | _ => []

/-- The normalized names the word introduces through the plain optional
grammar. -/
def wordPlainOptNames (w : Word) : List Word :=
  match optionalMatch w with
  | some (rn, false) => [replaceDash rn]
  | _ => []

/-- The normalized names the word introduces through required-field
markers (an optional word is never scanned for markers). -/
def wordReqNames (w : Word) : List Word :=
  match optionalMatch w with
  | some _ => []
  | none => (templateFindAll w).map (fun m => replaceDash (trim m.name))

/-- All optional array names of a blueprint argument vector, in scan
order. -/
def arrayNames (args : List Word) : List Word :=
  (args.drop 1).flatMap wordArrayNames

/-- All plain optional names of a blueprint argument vector. -/
def plainOptionalNames (args : List Word) : List Word :=
  (args.drop 1).flatMap wordPlainOptNames

/-- All required-marker names of a blueprint argument vector, in scan
order. -/
def reqMarkerNames (args : List Word) : List Word :=
  (args.drop 1).flatMap wordReqNames

/-- The trimmed descriptions attached to the required-marker occurrences
of a given normalized name, in scan order. -/
def wordDescsFor (n : Word) (w : Word) : List Word :=
  match optionalMatch w with
  | some _ => []
  | none =>
    (templateFindAll w).filterMap
      (fun m => if replaceDash (trim m.name) = n then some (trim m.desc) else none)

/-- All trimmed descriptions attached to a normalized name over a list of
words, in scan order. -/
def descsFor (n : Word) (ws : List Word) : List Word :=
  ws.flatMap (wordDescsFor n)

/-- The one-step evolution of the property recorded for a required-field
name when one more occurrence with the given trimmed description is
scanned. -/
def updateProp : Option PropSchema → Word → Option PropSchema
  | none, d => some ⟨str "string", if d.isEmpty then none else some d, none⟩
  | some p, d => if d.isEmpty then some p else some ⟨str "string", some d, none⟩

/-- Modelled from the spec sentence on required-field descriptions: the
final property of a required-field name is a string property whose
description is the last non-empty description supplied among the
occurrences in scan order, or absent when none supplies one; there is no
property at all when the name never occurs. -/
def specFinalProp (ds : List Word) : Option PropSchema :=
  if ds.isEmpty then none
  else some ⟨str "string", (ds.filter (fun d => !d.isEmpty)).getLast?, none⟩

/-- Modelled from the spec sentence on OptionalArray rendering: a bound
sequence contributes its string elements as separate entries in order; an
absent binding, a bound empty sequence, or a binding of any other shape
contributes nothing. -/
def specArraySeq : Option Value → List Word
  | some (Value.vStrList l) => l
  | some (Value.vList l) => stringItems l
  | _ => []

/-- Modelled from the spec sentence on plain Optional rendering: a bound
non-empty string contributes itself as a single entry; an absent binding,
a bound empty string, or a binding of any other shape contributes
nothing. -/
def specOptStr : Option Value → List Word
  | some (Value.vStr s) => if s.isEmpty then [] else [s]
  | _ => []

/-! ### Facts about replaceAll -/

theorem replaceAllAux_congr (pat rep : Word) :
    ∀ (f : Nat) (s : Word) (g : Nat), s.length ≤ f → s.length ≤ g →
      replaceAllAux f s pat rep = replaceAllAux g s pat rep := by
  intro f
  induction f with
  | zero =>
    intro s g hf _
    have hs : s = [] := List.eq_nil_of_length_eq_zero (Nat.le_zero.mp hf)
    subst hs
    cases g <;> rfl
  | succ f ih =>
    intro s g hf hg
    cases s with
    | nil => cases g <;> rfl
    | cons c cs =>
      obtain ⟨g', rfl⟩ : ∃ g', g = g' + 1 := by
        cases g with
        | zero => exact absurd hg (by simp)
        | succ g' => exact ⟨g', rfl⟩
      have hfc : cs.length ≤ f := by
        simp only [List.length_cons] at hf; omega
      have hgc : cs.length ≤ g' := by
        simp only [List.length_cons] at hg; omega
      simp only [replaceAllAux]
      by_cases hc : (!pat.isEmpty && pat.isPrefixOf (c :: cs)) = true
      · have hpat : pat ≠ [] := by
          intro h; subst h; simp at hc
        have hlen : ((c :: cs).drop pat.length).length ≤ cs.length := by
          rw [List.length_drop]
          have : 1 ≤ pat.length := by
            cases pat with
            | nil => exact absurd rfl hpat
            | cons _ _ => simp
          simp only [List.length_cons]
          omega
        simp only [hc, if_true]
        rw [ih _ g' (le_trans hlen hfc) (le_trans hlen hgc)]
      · rw [if_neg hc, if_neg hc, ih _ g' hfc hgc]

theorem replaceAll_nil (pat rep : Word) : replaceAll [] pat rep = [] := rfl

theorem replaceAll_cons (c : Char) (cs pat rep : Word) :
    replaceAll (c :: cs) pat rep =
      if !pat.isEmpty && pat.isPrefixOf (c :: cs) then
        rep ++ replaceAll ((c :: cs).drop pat.length) pat rep
      else
        c :: replaceAll cs pat rep := by
  show replaceAllAux (cs.length + 1) (c :: cs) pat rep = _
  simp only [replaceAllAux]
  by_cases hc : (!pat.isEmpty && pat.isPrefixOf (c :: cs)) = true
  · have hpat : pat ≠ [] := by
      intro h; subst h; simp at hc
    have hlen : ((c :: cs).drop pat.length).length ≤ cs.length := by
      rw [List.length_drop]
      have : 1 ≤ pat.length := by
        cases pat with
        | nil => exact absurd rfl hpat
        | cons _ _ => simp
      simp only [List.length_cons]
      omega
    simp only [hc, if_true]
    rw [replaceAllAux_congr pat rep cs.length ((c :: cs).drop pat.length)
      ((c :: cs).drop pat.length).length hlen le_rfl]
    rfl
  · rw [if_neg hc, if_neg hc]
    rfl

theorem replaceAll_of_not_occurs (s pat rep : Word) (h : occursIn pat s = false) :
    replaceAll s pat rep = s := by
  induction s with
  | nil => rfl
  | cons c cs ih =>
    simp only [occursIn, Bool.or_eq_false_iff] at h
    rw [replaceAll_cons, h.1, Bool.and_false, if_neg (by simp)]
    rw [ih h.2]

/-! ### Facts about the substitution fold -/

theorem foldl_substStep_of_unbound (params : Params) :
    ∀ (ms : List TMatch) (acc : Word),
      (∀ m ∈ ms, boundStr params (replaceDash (trim m.name)) = none) →
      ms.foldl (substStep params) acc = acc := by
  intro ms
  induction ms with
  | nil => intro acc _; rfl
  | cons m ms ih =>
    intro acc h
    have hm := h m (by simp)
    have hstep : substStep params acc m = acc := by
      unfold substStep
      unfold boundStr at hm
      rcases hv : plookup params (replaceDash (trim m.name)) with _ | v
      · simp [hv]
      · cases v <;> simp_all [hv]
    rw [List.foldl_cons, hstep]
    exact ih acc (fun m' hm' => h m' (by simp [hm']))

theorem foldl_substStep_of_not_occurs (params : Params) :
    ∀ (ms : List TMatch) (acc : Word),
      (∀ m ∈ ms, (boundStr params (replaceDash (trim m.name))).isSome = true →
        occursIn m.full acc = false) →
      ms.foldl (substStep params) acc = acc := by
  intro ms
  induction ms with
  | nil => intro acc _; rfl
  | cons m ms ih =>
    intro acc h
    have hstep : substStep params acc m = acc := by
      unfold substStep
      rcases hv : plookup params (replaceDash (trim m.name)) with _ | v
      · simp [hv]
      · cases v with
        | vStr s =>
          have hb : (boundStr params (replaceDash (trim m.name))).isSome = true := by
            unfold boundStr; rw [hv]; rfl
          have := h m (by simp) hb
          simpa [hv] using replaceAll_of_not_occurs acc m.full s this
        | vStrList l => simp [hv]
        | vList l => simp [hv]
        | vOther => simp [hv]
    rw [List.foldl_cons, hstep]
    exact ih acc (fun m' hm' hb => h m' (by simp [hm']) hb)

/-! ### Facts about the parsing loop -/

theorem FromArgs_args (args : List Word) : (FromArgs args).args = args := by
  cases args <;> rfl

theorem BuildCommandArgs_FromArgs (args : List Word) (params : Params) :
    BuildCommandArgs (FromArgs args) params =
      (FromArgs args).BaseCommand :: (args.drop 1).flatMap (renderWord params) := by
  unfold BuildCommandArgs
  rw [FromArgs_args]

theorem foldTM_descParts (i : Nat) :
    ∀ (ms : List TMatch) (acc : ParseAcc),
      (ms.foldl (processTemplateMatch i) acc).descParts = acc.descParts := by
  intro ms
  induction ms with
  | nil => intro acc; rfl
  | cons m ms ih =>
    intro acc
    rw [List.foldl_cons, ih]
    rfl

theorem processWordParse_descParts (i : Nat) (acc : ParseAcc) (w : Word) :
    (processWordParse i acc w).descParts = acc.descParts ++ [displayWord w] := by
  unfold processWordParse displayWord
  rcases hw : optionalMatch w with _ | ⟨rn, b⟩
  · simp only [foldTM_descParts]
  · cases b <;> simp

theorem parseLoop_descParts :
    ∀ (ws : List Word) (i : Nat) (acc : ParseAcc),
      (parseLoop i acc ws).descParts = acc.descParts ++ ws.map displayWord := by
  intro ws
  induction ws with
  | nil => intro i acc; simp [parseLoop]
  | cons w ws ih =>
    intro i acc
    rw [parseLoop, ih, processWordParse_descParts]
    simp

theorem processTemplateMatch_required_mem (i : Nat) (acc : ParseAcc) (m : TMatch) (n : Word) :
    n ∈ (processTemplateMatch i acc m).required ↔
      n ∈ acc.required ∨ n = replaceDash (trim m.name) := by
  unfold processTemplateMatch
  by_cases h : replaceDash (trim m.name) ∈ acc.required
  · simp only [h, if_true]
    constructor
    · exact Or.inl
    · rintro (hn | rfl)
      · exact hn
      · exact h
  · simp [h, List.mem_append]

theorem foldTM_required_mem (i : Nat) (n : Word) :
    ∀ (ms : List TMatch) (acc : ParseAcc),
      n ∈ (ms.foldl (processTemplateMatch i) acc).required ↔
        n ∈ acc.required ∨ n ∈ ms.map (fun m => replaceDash (trim m.name)) := by
  intro ms
  induction ms with
  | nil => intro acc; simp
  | cons m ms ih =>
    intro acc
    rw [List.foldl_cons, ih, processTemplateMatch_required_mem]
    simp only [List.map_cons, List.mem_cons]
    tauto

theorem processWordParse_required_mem (i : Nat) (acc : ParseAcc) (w : Word) (n : Word) :
    n ∈ (processWordParse i acc w).required ↔
      n ∈ acc.required ∨ n ∈ wordArrayNames w ∨ n ∈ wordReqNames w := by
  unfold processWordParse wordArrayNames wordReqNames
  rcases hw : optionalMatch w with _ | ⟨rn, b⟩
  · simp only [foldTM_required_mem]
    simp
  · cases b
    · simp
    · simp [List.mem_append]

theorem parseLoop_required_mem :
    ∀ (ws : List Word) (i : Nat) (acc : ParseAcc) (n : Word),
      n ∈ (parseLoop i acc ws).required ↔
        n ∈ acc.required ∨ n ∈ ws.flatMap wordArrayNames ∨ n ∈ ws.flatMap wordReqNames := by
  intro ws
  induction ws with
  | nil => intro i acc n; simp [parseLoop]
  | cons w ws ih =>
    intro i acc n
    rw [parseLoop, ih, processWordParse_required_mem]
    simp only [List.flatMap_cons, List.mem_append]
    tauto

theorem processTemplateMatch_required_nodup (i : Nat) (acc : ParseAcc) (m : TMatch)
    (h : acc.required.Nodup) : (processTemplateMatch i acc m).required.Nodup := by
  unfold processTemplateMatch
  by_cases hm : replaceDash (trim m.name) ∈ acc.required
  · simpa [hm] using h
  · simp [hm, List.nodup_append, h]

theorem foldTM_required_nodup (i : Nat) :
    ∀ (ms : List TMatch) (acc : ParseAcc), acc.required.Nodup →
      (ms.foldl (processTemplateMatch i) acc).required.Nodup := by
  intro ms
  induction ms with
  | nil => intro acc h; exact h
  | cons m ms ih =>
    intro acc h
    rw [List.foldl_cons]
    exact ih _ (processTemplateMatch_required_nodup i acc m h)

theorem parseLoop_required_nodup :
    ∀ (ws : List Word) (i : Nat) (acc : ParseAcc),
      acc.required.Nodup →
      (∀ v ∈ ws.flatMap wordArrayNames, v ∉ acc.required) →
      (ws.flatMap wordArrayNames).Nodup →
      (∀ v ∈ ws.flatMap wordArrayNames, v ∉ ws.flatMap wordReqNames) →
      (parseLoop i acc ws).required.Nodup := by
  intro ws
  induction ws with
  | nil => intro i acc h1 _ _ _; exact h1
  | cons w ws ih =>
    intro i acc h1 h2 h3 h4
    rw [parseLoop]
    rcases hw : optionalMatch w with _ | ⟨rn, b⟩
    · -- a word scanned for required markers
      have harr : wordArrayNames w = [] := by simp [wordArrayNames, hw]
      have hreq : wordReqNames w = (templateFindAll w).map (fun m => replaceDash (trim m.name)) := by
        simp [wordReqNames, hw]
      refine ih (i + 1) _ ?_ ?_ ?_ ?_
      · have : (processWordParse i acc w).required =
            ((templateFindAll w).foldl (processTemplateMatch i) acc).required := by
          simp [processWordParse, hw]
        rw [this]
        exact foldTM_required_nodup i _ acc h1
      · intro v hv
        have hv' : v ∈ (w :: ws).flatMap wordArrayNames := by
          simp only [List.flatMap_cons, List.mem_append]; exact Or.inr hv
        have hreqmem :
            (processWordParse i acc w).required =
              ((templateFindAll w).foldl (processTemplateMatch i) acc).required := by
          simp [processWordParse, hw]
        rw [hreqmem, foldTM_required_mem]
        rintro (hva | hvm)
        · exact h2 v hv' hva
        · have : v ∈ (w :: ws).flatMap wordReqNames := by
            simp only [List.flatMap_cons, List.mem_append]
            exact Or.inl (by rw [hreq]; exact hvm)
          exact h4 v hv' this
      · have : (w :: ws).flatMap wordArrayNames = ws.flatMap wordArrayNames := by
          simp [List.flatMap_cons, harr]
        rw [this] at h3
        exact h3
      · intro v hv
        have hv' : v ∈ (w :: ws).flatMap wordArrayNames := by
          simp only [List.flatMap_cons, List.mem_append]; exact Or.inr hv
        intro hvr
        exact h4 v hv' (by simp only [List.flatMap_cons, List.mem_append]; exact Or.inr hvr)
    · cases b
      · -- plain optional word: the required list is unchanged
        have harr : wordArrayNames w = [] := by simp [wordArrayNames, hw]
        have hreqw : wordReqNames w = [] := by simp [wordReqNames, hw]
        have hacc : (processWordParse i acc w).required = acc.required := by
          simp [processWordParse, hw]
        have hws3 : (w :: ws).flatMap wordArrayNames = ws.flatMap wordArrayNames := by
          simp [List.flatMap_cons, harr]
        refine ih (i + 1) _ (by rw [hacc]; exact h1) ?_ ?_ ?_
        · intro v hv
          rw [hacc]
          exact h2 v (by rw [hws3]; exact hv)
        · rw [hws3] at h3; exact h3
        · intro v hv hvr
          refine h4 v (by rw [hws3]; exact hv) ?_
          simp only [List.flatMap_cons, List.mem_append, hreqw]
          simp only [List.not_mem_nil] at *
          exact Or.inr hvr
      · -- optional array word: one name appended unconditionally
        set v0 := replaceDash rn with hv0
        have harr : wordArrayNames w = [v0] := by simp [wordArrayNames, hw, hv0]
        have hreqw : wordReqNames w = [] := by simp [wordReqNames, hw]
        have hacc : (processWordParse i acc w).required = acc.required ++ [v0] := by
          simp [processWordParse, hw]
        have hv0arr : v0 ∈ (w :: ws).flatMap wordArrayNames := by
          simp [List.flatMap_cons, harr]
        have hsplit : (w :: ws).flatMap wordArrayNames = v0 :: ws.flatMap wordArrayNames := by
          simp [List.flatMap_cons, harr]
        have h3' : (ws.flatMap wordArrayNames).Nodup ∧ v0 ∉ ws.flatMap wordArrayNames := by
          rw [hsplit] at h3
          exact ⟨h3.of_cons, (List.nodup_cons.mp h3).1⟩
        refine ih (i + 1) _ ?_ ?_ h3'.1 ?_
        · rw [hacc]
          simp [List.nodup_append, h1, h2 v0 hv0arr]
        · intro v hv
          rw [hacc]
          simp only [List.mem_append, List.mem_singleton]
          rintro (hva | rfl)
          · exact h2 v (by rw [hsplit]; exact List.mem_cons_of_mem _ hv) hva
          · exact h3'.2 hv
        · intro v hv hvr
          refine h4 v (by rw [hsplit]; exact List.mem_cons_of_mem _ hv) ?_
          simp only [List.flatMap_cons, List.mem_append, hreqw]
          simp only [List.not_mem_nil] at *
          exact Or.inr hvr

/-! ### Tracking one property through the parsing loop -/

theorem pfind_minsert_self :
    ∀ (l : List (Word × PropSchema)) (k : Word) (v : PropSchema),
      pfind (minsert l k v) k = some v := by
  intro l
  induction l with
  | nil => intro k v; simp [minsert, pfind]
  | cons kv rest ih =>
    intro k v
    by_cases h : kv.1 = k
    · simp [minsert, pfind, h]
    · simp [minsert, pfind, h, ih]

theorem pfind_minsert_ne :
    ∀ (l : List (Word × PropSchema)) (k : Word) (v : PropSchema) (k' : Word), k' ≠ k →
      pfind (minsert l k v) k' = pfind l k' := by
  intro l
  induction l with
  | nil =>
    intro k v k' h
    simp only [minsert, pfind]
    rw [if_neg (fun he => h he.symm)]
  | cons kv rest ih =>
    intro k v k' h
    obtain ⟨k0, v0⟩ := kv
    simp only [minsert]
    by_cases h0 : k0 = k
    · rw [if_pos h0]
      simp only [pfind]
      rw [if_neg (fun he => h he.symm), if_neg (fun he => h (h0 ▸ he).symm)]
    · rw [if_neg h0]
      simp only [pfind]
      by_cases h1 : k0 = k'
      · rw [if_pos h1, if_pos h1]
      · rw [if_neg h1, if_neg h1, ih k v k' h]

theorem processTemplateMatch_props_pfind (i : Nat) (acc : ParseAcc) (m : TMatch) (n : Word) :
    pfind (processTemplateMatch i acc m).props n =
      if replaceDash (trim m.name) = n
      then updateProp (pfind acc.props n) (trim m.desc)
      else pfind acc.props n := by
  by_cases heq : replaceDash (trim m.name) = n
  · rw [if_pos heq]
    simp only [processTemplateMatch, heq]
    rcases hp : pfind acc.props n with _ | p
    · simp [pfind_minsert_self, updateProp]
    · cases hd : (trim m.desc).isEmpty
      · simp [pfind_minsert_self, updateProp, hd]
      · simp [updateProp, hd, hp]
  · rw [if_neg heq]
    simp only [processTemplateMatch]
    cases hc : ((pfind acc.props (replaceDash (trim m.name))).isNone
        || !(trim m.desc).isEmpty)
    · rw [if_neg Bool.false_ne_true]
    · rw [if_pos rfl, pfind_minsert_ne _ _ _ _ (fun h => heq h.symm)]

theorem foldTM_props_pfind (i : Nat) (n : Word) :
    ∀ (ms : List TMatch) (acc : ParseAcc),
      pfind (ms.foldl (processTemplateMatch i) acc).props n =
        (ms.filterMap
          (fun m => if replaceDash (trim m.name) = n then some (trim m.desc) else none)).foldl
          updateProp (pfind acc.props n) := by
  intro ms
  induction ms with
  | nil => intro acc; rfl
  | cons m ms ih =>
    intro acc
    rw [List.foldl_cons, ih]
    by_cases heq : replaceDash (trim m.name) = n
    · rw [List.filterMap_cons_some (by rw [if_pos heq] : _ = some (trim m.desc)),
        List.foldl_cons, processTemplateMatch_props_pfind, if_pos heq]
    · rw [List.filterMap_cons_none (by rw [if_neg heq] : _ = none),
        processTemplateMatch_props_pfind, if_neg heq]

theorem processWordParse_props_pfind (i : Nat) (acc : ParseAcc) (w : Word) (n : Word)
    (h : wordOptName w ≠ some n) :
    pfind (processWordParse i acc w).props n =
      (wordDescsFor n w).foldl updateProp (pfind acc.props n) := by
  rcases hw : optionalMatch w with _ | ⟨rn, b⟩
  · simp only [processWordParse, wordDescsFor, hw, foldTM_props_pfind]
  · have hne : n ≠ replaceDash rn := by
      intro he
      exact h (by simp [wordOptName, hw, he])
    cases b
    · simp [processWordParse, wordDescsFor, hw, pfind_minsert_ne _ _ _ _ hne]
    · simp [processWordParse, wordDescsFor, hw, pfind_minsert_ne _ _ _ _ hne]

theorem parseLoop_props_pfind (n : Word) :
    ∀ (ws : List Word) (i : Nat) (acc : ParseAcc),
      (∀ w ∈ ws, wordOptName w ≠ some n) →
      pfind (parseLoop i acc ws).props n =
        (descsFor n ws).foldl updateProp (pfind acc.props n) := by
  intro ws
  induction ws with
  | nil => intro i acc _; rfl
  | cons w ws ih =>
    intro i acc h
    rw [parseLoop, ih _ _ (fun w' hw' => h w' (List.mem_cons_of_mem _ hw'))]
    unfold descsFor
    rw [List.flatMap_cons, List.foldl_append,
      processWordParse_props_pfind i acc w n (h w (List.mem_cons_self _ _))]

theorem flatMap_renderWord_eq_self (params : Params) :
    ∀ (ws : List Word), (∀ w ∈ ws, optionalMatch w = none ∧ templateFindAll w = []) →
      ws.flatMap (renderWord params) = ws := by
  intro ws
  induction ws with
  | nil => intro _; rfl
  | cons w ws ih =>
    intro h
    have hw := h w (List.mem_cons_self _ _)
    have hrw : renderWord params w = [w] := by
      simp [renderWord, hw.1, templateSubst, hw.2]
    rw [List.flatMap_cons, hrw, ih (fun w' hw' => h w' (List.mem_cons_of_mem _ hw'))]
    rfl

theorem foldl_updateProp_spec : ∀ (ds : List Word),
    ds.foldl updateProp none = specFinalProp ds := by
  intro ds
  induction ds using List.reverseRecOn with
  | nil => rfl
  | append_singleton ds d ih =>
    rw [List.foldl_concat, ih]
    unfold specFinalProp
    cases ds with
    | nil =>
      by_cases hd : d.isEmpty = true
      · simp [updateProp, hd, List.filter]
      · simp [updateProp, hd, List.filter]
    | cons d0 ds0 =>
      simp only [List.isEmpty_cons, if_false]
      by_cases hd : d.isEmpty = true
      · have hfilter : ((d0 :: ds0) ++ [d]).filter (fun x => !x.isEmpty) =
            (d0 :: ds0).filter (fun x => !x.isEmpty) := by
          rw [List.filter_append]
          simp [List.filter, hd]
        rw [hfilter]
        simp [updateProp, hd]
      · have hfilter : ((d0 :: ds0) ++ [d]).filter (fun x => !x.isEmpty) =
            (d0 :: ds0).filter (fun x => !x.isEmpty) ++ [d] := by
          rw [List.filter_append]
          simp [List.filter, hd]
        rw [hfilter]
        simp [updateProp, hd, List.getLast?_concat]

/-! ### The claims -/

/-- C1 fails on the source: the renderer substitutes each placeholder by a
textual ReplaceAll over the whole evolving word, so a bound value that
equals the full literal span of a later placeholder of the same word is
itself rewritten by that later placeholder. Rendering the word of two
placeholders a and b with a bound to the literal text of the b placeholder
and b bound to X yields XX, not the b-placeholder text followed by X. -/
theorem C1_counterexample :
    BuildCommandArgs (FromArgs [str "echo", str "\x7b\x7ba\x7d\x7d\x7b\x7bb\x7d\x7d"])
        [(str "a", Value.vStr (str "\x7b\x7bb\x7d\x7d")), (str "b", Value.vStr (str "X"))]
      = [str "echo", str "XX"]
    ∧ BuildCommandArgs (FromArgs [str "echo", str "\x7b\x7ba\x7d\x7d\x7b\x7bb\x7d\x7d"])
        [(str "a", Value.vStr (str "\x7b\x7bb\x7d\x7d")), (str "b", Value.vStr (str "X"))]
      ≠ [str "echo", str "\x7b\x7bb\x7d\x7dX"] := by
  exact ⟨by decide, by decide⟩

/-- C1 (amended): substitution processes the placeholder spans matched
once in the original word, in match order, each by textual replacement of
its full span in the evolving word; an inserted value is never re-scanned
by the placeholder grammar, and it is never rewritten by a later
placeholder whose bound span does not occur in the evolving word: when,
from position k on, every later bound placeholder span is absent from the
word obtained after the first k substitutions, the remaining processing
changes nothing. -/
theorem C1_amended (params : Params) (w : Word) (k : Nat)
    (h : ∀ m ∈ (templateFindAll w).drop k,
      (boundStr params (replaceDash (trim m.name))).isSome = true →
      occursIn m.full (((templateFindAll w).take k).foldl (substStep params) w) = false) :
    templateSubst params w = ((templateFindAll w).take k).foldl (substStep params) w := by
  unfold templateSubst
  conv_lhs => rw [← List.take_append_drop k (templateFindAll w)]
  rw [List.foldl_append]
  exact foldl_substStep_of_not_occurs params _ _ h

/-- C1 witness: in a word with the two placeholders a and b, with a bound
to a placeholder-shaped value and b unbound, the value is inserted
literally and never re-scanned. -/
theorem C1_amended_witness :
    templateSubst [(str "a", Value.vStr (str "\x7b\x7bc\x7d\x7d"))]
        (str "\x7b\x7ba\x7d\x7d \x7b\x7bb\x7d\x7d")
      = (((templateFindAll (str "\x7b\x7ba\x7d\x7d \x7b\x7bb\x7d\x7d")).take 1).foldl
          (substStep [(str "a", Value.vStr (str "\x7b\x7bc\x7d\x7d"))])
          (str "\x7b\x7ba\x7d\x7d \x7b\x7bb\x7d\x7d")) :=
  C1_amended _ _ 1 (by decide)

/-- C2 fails on the source only at the zero-element vector: its rendering
is the one-element vector holding the empty string, not the empty
vector. -/
theorem C2_counterexample :
    (∀ w ∈ ([] : List Word), optionalMatch w = none ∧ templateFindAll w = [])
    ∧ BuildCommandArgs (FromArgs ([] : List Word)) [] = [[]]
    ∧ BuildCommandArgs (FromArgs ([] : List Word)) [] ≠ ([] : List Word) := by
  refine ⟨by simp, by decide, by decide⟩

/-- C2 (amended): for every non-empty argument vector in which no word
matches the optional grammar and no word contains a required-field
marker, rendering with an empty parameter mapping returns the input
vector unchanged. -/
theorem C2_amended (base : Word) (rest : List Word)
    (h : ∀ w ∈ base :: rest, optionalMatch w = none ∧ templateFindAll w = []) :
    BuildCommandArgs (FromArgs (base :: rest)) [] = base :: rest := by
  rw [BuildCommandArgs_FromArgs]
  rw [show (FromArgs (base :: rest)).BaseCommand = base from rfl]
  rw [show (base :: rest).drop 1 = rest from rfl]
  rw [flatMap_renderWord_eq_self [] rest (fun w hw => h w (List.mem_cons_of_mem _ hw))]

/-- C2 witness: a concrete literal command is reproduced unchanged. -/
theorem C2_amended_witness :
    BuildCommandArgs (FromArgs [str "echo", str "hello", str "-n", str "wor[ld"]) []
      = [str "echo", str "hello", str "-n", str "wor[ld"] :=
  C2_amended (str "echo") [str "hello", str "-n", str "wor[ld"] (by decide)

/-- C10: parsing the zero-element vector yields empty base command, tool
name and tool description, the empty object schema with no properties and
an absent required list, and rendering that blueprint under any parameter
mapping yields the one-element vector holding the empty string. -/
theorem C10_empty_vector (params : Params) :
    FromArgs ([] : List Word) =
      ⟨[], [], [], ⟨str "object", [], none⟩, [], []⟩
    ∧ BuildCommandArgs (FromArgs ([] : List Word)) params = [[]] :=
  ⟨rfl, rfl⟩

/-- C3: every name introduced by an optional array word or a
required-field marker is a member of the required list of the produced
schema, and a name not introduced by either (in particular a name
introduced only by plain optional words) is absent from it. -/
theorem C3_required_membership (args : List Word) (n : Word) :
    ((n ∈ arrayNames args ∨ n ∈ reqMarkerNames args) →
      ∃ l, (FromArgs args).InputSchema.required = some l ∧ n ∈ l)
    ∧ (n ∈ plainOptionalNames args → n ∉ arrayNames args → n ∉ reqMarkerNames args →
      ∀ l, (FromArgs args).InputSchema.required = some l → n ∉ l) := by
  cases args with
  | nil =>
    constructor
    · intro h
      simp [arrayNames, reqMarkerNames] at h
    · intro _ _ _ l hl
      cases hl
  | cons base rest =>
    constructor
    · intro h
      have hn : n ∈ (parseLoop 1 ⟨[base], [], [], []⟩ rest).required := by
        rw [parseLoop_required_mem]
        right
        exact h
      have hne : (parseLoop 1 ⟨[base], [], [], []⟩ rest).required.isEmpty = false := by
        cases hr : (parseLoop 1 ⟨[base], [], [], []⟩ rest).required
        · rw [hr] at hn; cases hn
        · rfl
      refine ⟨(parseLoop 1 ⟨[base], [], [], []⟩ rest).required, ?_, hn⟩
      show (if (parseLoop 1 ⟨[base], [], [], []⟩ rest).required.isEmpty = true then none
            else some (parseLoop 1 ⟨[base], [], [], []⟩ rest).required) = _
      rw [hne]
      simp
    · intro _ hna hnr l hl
      intro hn
      have heq : (FromArgs (base :: rest)).InputSchema.required =
          (if (parseLoop 1 ⟨[base], [], [], []⟩ rest).required.isEmpty = true then none
           else some (parseLoop 1 ⟨[base], [], [], []⟩ rest).required) := rfl
      rw [heq] at hl
      by_cases he : (parseLoop 1 ⟨[base], [], [], []⟩ rest).required.isEmpty = true
      · rw [if_pos he] at hl
        cases hl
      · rw [if_neg he] at hl
        injection hl with hl'
        rw [← hl'] at hn
        rw [parseLoop_required_mem] at hn
        rcases hn with hn | hn | hn
        · cases hn
        · exact hna hn
        · exact hnr hn

/-- C3 witness: in a concrete vector with an array word, a marker word
and a plain optional word, the array name is required and the plain
optional name is not. -/
theorem C3_required_membership_witness :
    (∃ l, (FromArgs [str "c", str "[a...]", str "\x7b\x7bb\x7d\x7d", str "[o]"]).InputSchema.required
        = some l ∧ str "a" ∈ l)
    ∧ str "o" ∉ [str "a", str "b"] :=
  ⟨(C3_required_membership [str "c", str "[a...]", str "\x7b\x7bb\x7d\x7d", str "[o]"] (str "a")).1
      (Or.inl (by decide)),
   (C3_required_membership [str "c", str "[a...]", str "\x7b\x7bb\x7d\x7d", str "[o]"] (str "o")).2
      (by decide) (by decide) (by decide) [str "a", str "b"] (by decide)⟩

/-- C4 fails on the source: the optional-array path appends to the
required list unconditionally, so a repeated optional array name yields a
duplicated required entry. -/
theorem C4_counterexample :
    (FromArgs [str "c", str "[x...]", str "[x...]"]).InputSchema.required
      = some [str "x", str "x"]
    ∧ ¬ ((FromArgs [str "c", str "[x...]", str "[x...]"]).InputSchema.required.getD []).Nodup := by
  exact ⟨by decide, by decide⟩

/-- C4 (amended): required-marker additions are deduplicated, but
optional-array additions append unconditionally; the required list is
duplicate-free provided no optional array name repeats and no optional
array name also occurs as a required-marker name. -/
theorem C4_amended (args : List Word)
    (h1 : (arrayNames args).Nodup)
    (h2 : ∀ v ∈ arrayNames args, v ∉ reqMarkerNames args) :
    ((FromArgs args).InputSchema.required.getD []).Nodup := by
  cases args with
  | nil => simp [FromArgs]
  | cons base rest =>
    have hnodup : (parseLoop 1 ⟨[base], [], [], []⟩ rest).required.Nodup := by
      refine parseLoop_required_nodup rest 1 _ ?_ ?_ h1 h2
      · simp
      · intro v _
        simp
    show ((if (parseLoop 1 ⟨[base], [], [], []⟩ rest).required.isEmpty = true then none
           else some (parseLoop 1 ⟨[base], [], [], []⟩ rest).required).getD []).Nodup
    by_cases he : (parseLoop 1 ⟨[base], [], [], []⟩ rest).required.isEmpty = true
    · rw [if_pos he]
      simp
    · rw [if_neg he]
      simpa using hnodup

/-- C4 witness: with one array name and a distinct marker name the
required list has no duplicates. -/
theorem C4_amended_witness :
    ((FromArgs [str "c", str "[a...]", str "\x7b\x7bb\x7d\x7d"]).InputSchema.required.getD []).Nodup :=
  C4_amended [str "c", str "[a...]", str "\x7b\x7bb\x7d\x7d"] (by decide) (by decide)

/-- C5 fails on the source: the display form of a required-field span
keeps the raw captured name verbatim (hyphens are not replaced and
whitespace is not trimmed); only the description part is stripped. -/
theorem C5_counterexample :
    (FromArgs [str "echo", str "\x7b\x7bmy-name\x7d\x7d"]).ToolDescription
      = str "Run the shell command `echo \x7b\x7bmy-name\x7d\x7d`"
    ∧ (FromArgs [str "echo", str "\x7b\x7bmy-name\x7d\x7d"]).ToolDescription
      ≠ str "Run the shell command `echo \x7b\x7bmy_name\x7d\x7d`" := by
  exact ⟨by decide, by decide⟩

/-- C5 (amended): the tool description is the fixed prefix, the base
command and the space-joined display forms of the remaining words, then a
closing backtick, where the display form of a word replaces every matched
placeholder span by the raw captured name in double braces (description
stripped, name neither trimmed nor normalized), leaves all other
characters untouched, and renders an optional word with its normalized
name in square brackets, with the three dots kept for arrays. -/
theorem C5_amended (base : Word) (rest : List Word) :
    (FromArgs (base :: rest)).ToolDescription
      = str "Run the shell command `" ++ (joinSp (base :: rest.map displayWord) ++ str "`") := by
  show str "Run the shell command `"
      ++ joinSp (parseLoop 1 ⟨[base], [], [], []⟩ rest).descParts ++ str "`" = _
  rw [parseLoop_descParts]
  simp [List.append_assoc]

/-- C6: an optional array word renders to exactly the string elements of
the bound sequence, as separate consecutive entries in sequence order at
the word's position (non-string items of a generic sequence contribute
nothing), and to zero entries when the name is unbound or bound to an
empty sequence. -/
theorem C6_array_rendering (params : Params) (pre post : List Word) (w rn : Word)
    (hpre : pre ≠ []) (hm : optionalMatch w = some (rn, true)) :
    renderWord params w = specArraySeq (plookup params (replaceDash rn))
    ∧ BuildCommandArgs (FromArgs (pre ++ w :: post)) params
      = pre.headI :: ((pre.drop 1).flatMap (renderWord params)
          ++ (specArraySeq (plookup params (replaceDash rn))
            ++ post.flatMap (renderWord params))) := by
  have hrw : renderWord params w = specArraySeq (plookup params (replaceDash rn)) := by
    rcases hv : plookup params (replaceDash rn) with _ | v
    · simp [renderWord, hm, hv, specArraySeq]
    · cases v with
      | vStr s => simp [renderWord, hm, hv, specArraySeq]
      | vStrList l => cases l <;> simp [renderWord, hm, hv, specArraySeq]
      | vList l => cases l <;> simp [renderWord, hm, hv, specArraySeq, stringItems]
      | vOther => simp [renderWord, hm, hv, specArraySeq]
  refine ⟨hrw, ?_⟩
  obtain ⟨p, pre', rfl⟩ : ∃ p pre', pre = p :: pre' := by
    cases pre with
    | nil => exact absurd rfl hpre
    | cons p pre' => exact ⟨p, pre', rfl⟩
  rw [BuildCommandArgs_FromArgs]
  rw [show (FromArgs ((p :: pre') ++ w :: post)).BaseCommand = p from rfl]
  rw [show ((p :: pre') ++ w :: post).drop 1 = pre' ++ w :: post from rfl]
  rw [List.flatMap_append, List.flatMap_cons, hrw]
  rfl

/-- C6 witness: a bound generic sequence holding two strings around a
non-string item contributes exactly the two strings, in order, at the
word's position. -/
theorem C6_array_rendering_witness :
    renderWord [(str "a", Value.vList [Item.iStr (str "p"), Item.iOther, Item.iStr (str "q")])]
        (str "[a...]")
      = specArraySeq (plookup
          [(str "a", Value.vList [Item.iStr (str "p"), Item.iOther, Item.iStr (str "q")])]
          (replaceDash (str "a")))
    ∧ BuildCommandArgs (FromArgs ([str "c", str "x"] ++ (str "[a...]") :: []))
        [(str "a", Value.vList [Item.iStr (str "p"), Item.iOther, Item.iStr (str "q")])]
      = [str "c", str "x"].headI
        :: (([str "c", str "x"].drop 1).flatMap
            (renderWord [(str "a", Value.vList [Item.iStr (str "p"), Item.iOther, Item.iStr (str "q")])])
          ++ (specArraySeq (plookup
                [(str "a", Value.vList [Item.iStr (str "p"), Item.iOther, Item.iStr (str "q")])]
                (replaceDash (str "a")))
            ++ ([] : List Word).flatMap
                (renderWord [(str "a", Value.vList [Item.iStr (str "p"), Item.iOther, Item.iStr (str "q")])]))) :=
  C6_array_rendering _ _ _ _ _ (by decide) (by decide)

/-- C7: a plain optional word renders to the bound string as a single
entry at the word's position when that string is non-empty, and to
nothing when the name is unbound, bound to the empty string, or bound to
a non-string value. -/
theorem C7_optional_rendering (params : Params) (pre post : List Word) (w rn : Word)
    (hpre : pre ≠ []) (hm : optionalMatch w = some (rn, false)) :
    renderWord params w = specOptStr (plookup params (replaceDash rn))
    ∧ BuildCommandArgs (FromArgs (pre ++ w :: post)) params
      = pre.headI :: ((pre.drop 1).flatMap (renderWord params)
          ++ (specOptStr (plookup params (replaceDash rn))
            ++ post.flatMap (renderWord params))) := by
  have hrw : renderWord params w = specOptStr (plookup params (replaceDash rn)) := by
    rcases hv : plookup params (replaceDash rn) with _ | v
    · simp [renderWord, hm, hv, specOptStr]
    · cases v with
      | vStr s => simp [renderWord, hm, hv, specOptStr]
      | vStrList l => simp [renderWord, hm, hv, specOptStr]
      | vList l => simp [renderWord, hm, hv, specOptStr]
      | vOther => simp [renderWord, hm, hv, specOptStr]
  refine ⟨hrw, ?_⟩
  obtain ⟨p, pre', rfl⟩ : ∃ p pre', pre = p :: pre' := by
    cases pre with
    | nil => exact absurd rfl hpre
    | cons p pre' => exact ⟨p, pre', rfl⟩
  rw [BuildCommandArgs_FromArgs]
  rw [show (FromArgs ((p :: pre') ++ w :: post)).BaseCommand = p from rfl]
  rw [show ((p :: pre') ++ w :: post).drop 1 = pre' ++ w :: post from rfl]
  rw [List.flatMap_append, List.flatMap_cons, hrw]
  rfl

/-- C7 witness: a bound empty string contributes nothing, exercised at a
concrete vector where the plain optional word sits between literals. -/
theorem C7_optional_rendering_witness :
    renderWord [(str "o", Value.vStr ([] : Word))] (str "[o]")
      = specOptStr (plookup [(str "o", Value.vStr ([] : Word))] (replaceDash (str "o")))
    ∧ BuildCommandArgs (FromArgs ([str "c"] ++ (str "[o]") :: [str "z"]))
        [(str "o", Value.vStr ([] : Word))]
      = [str "c"].headI :: (([str "c"].drop 1).flatMap (renderWord [(str "o", Value.vStr ([] : Word))])
          ++ (specOptStr (plookup [(str "o", Value.vStr ([] : Word))] (replaceDash (str "o")))
            ++ [str "z"].flatMap (renderWord [(str "o", Value.vStr ([] : Word))]))) :=
  C7_optional_rendering _ _ _ _ _ (by decide) (by decide)

/-- C8: for a name whose placeholders are all required-field markers (the
name does not occur as an optional word), the final property is a string
property whose description is the last non-empty description supplied
among the occurrences in scan order, absent when none supplies one, and
there is no property when the name never occurs. -/
theorem C8_description_last_nonempty (args : List Word) (n : Word)
    (h : ∀ w ∈ args.drop 1, wordOptName w ≠ some n) :
    pfind (FromArgs args).InputSchema.properties n
      = specFinalProp (descsFor n (args.drop 1)) := by
  cases args with
  | nil => rfl
  | cons base rest =>
    rw [show (FromArgs (base :: rest)).InputSchema.properties
        = (parseLoop 1 ⟨[base], [], [], []⟩ rest).props from rfl]
    rw [parseLoop_props_pfind n rest 1 _ h]
    exact foldl_updateProp_spec _

/-- C8 witness: the name x occurs four times with the descriptions one,
empty, two, blank; the recorded description is two. -/
theorem C8_description_last_nonempty_witness :
    pfind (FromArgs [str "c", str "\x7b\x7bx#one\x7d\x7d", str "\x7b\x7bx\x7d\x7d",
          str "\x7b\x7bx#two\x7d\x7d", str "\x7b\x7bx# \x7d\x7d"]).InputSchema.properties (str "x")
      = specFinalProp (descsFor (str "x")
          ([str "c", str "\x7b\x7bx#one\x7d\x7d", str "\x7b\x7bx\x7d\x7d",
            str "\x7b\x7bx#two\x7d\x7d", str "\x7b\x7bx# \x7d\x7d"].drop 1)) :=
  C8_description_last_nonempty _ (str "x") (by decide)

/-- C9: parsing accepts every argument vector unchanged, rendering is
total and processes the words after the base command in order, a word
matching neither grammar renders to itself, a word whose required markers
are all unbound or bound to non-strings renders to itself with the
placeholder text left in place, and an optional word with no binding
contributes nothing. -/
theorem C9_totality (args : List Word) (params : Params) :
    (FromArgs args).args = args
    ∧ BuildCommandArgs (FromArgs args) params
        = (FromArgs args).BaseCommand :: (args.drop 1).flatMap (renderWord params)
    ∧ (∀ w, optionalMatch w = none → templateFindAll w = [] → renderWord params w = [w])
    ∧ (∀ w, optionalMatch w = none →
        (∀ m ∈ templateFindAll w, boundStr params (replaceDash (trim m.name)) = none) →
        renderWord params w = [w])
    ∧ (∀ w rn b, optionalMatch w = some (rn, b) → plookup params (replaceDash rn) = none →
        renderWord params w = []) := by
  refine ⟨FromArgs_args args, BuildCommandArgs_FromArgs args params, ?_, ?_, ?_⟩
  · intro w h1 h2
    simp [renderWord, h1, templateSubst, h2]
  · intro w h1 h2
    have hsub : templateSubst params w = w :=
      foldl_substStep_of_unbound params _ _ h2
    simp [renderWord, h1, hsub]
  · intro w rn b h1 h2
    cases b <;> simp [renderWord, h1, h2]

/-- C9 witness: a malformed word with an unbound marker passes through as
literal text, an unbound optional word vanishes, and parsing stores the
vector unchanged. -/
theorem C9_totality_witness :
    renderWord [] (str "(bad\x7b\x7bmiss\x7d\x7d") = [str "(bad\x7b\x7bmiss\x7d\x7d"]
    ∧ renderWord [] (str "[opt]") = ([] : List Word)
    ∧ (FromArgs [str "run", str "\x7b\x7bmiss\x7d\x7d"]).args
      = [str "run", str "\x7b\x7bmiss\x7d\x7d"] := by
  obtain ⟨h1, _, _, h4, h5⟩ := C9_totality [str "run", str "\x7b\x7bmiss\x7d\x7d"] []
  exact ⟨h4 _ (by decide) (by decide), h5 _ (str "opt") false (by decide) (by decide), h1⟩

end Studio
